import Mathlib

/-!
Shallow embedding of `src/resources/python/account_ids.py` (a Terraform code
generator that resolves an AWS organization tree into provider and module
blocks), together with proofs checking the natural-language specification's
claims against the embedded code.

Python dictionaries are modelled as association lists preserving insertion
order; dictionary assignment `d[k] = v` is `dictInsert` (update in place if the
key exists, append otherwise).  Python exceptions are modelled with
`Except String`.  Python string `lower`, `startswith` and slicing `[:-2]` are
modelled character-wise (`pyLower`, `pyStartsWith`, `pySliceDropTwo`).
-/

/-- An AWS account record; only the `Name` and `Id` fields are used by the
generator. -/
structure Account where
  name : String
  id : String
deriving DecidableEq

/-- `ou_with_all_accounts`: mapping from OU path to the ordered account list
directly under that OU (a Python dict in insertion order). -/
abbrev OrgTree := List (String × List Account)

deriving instance DecidableEq for Except

/-- Python `str.lower()` (character-wise). -/
def pyLower (s : String) : String := String.mk (s.data.map Char.toLower)

/-- Python `str.startswith(pre)`. -/
def pyStartsWith (s pre : String) : Bool := pre.data.isPrefixOf s.data

/-- Python slicing `s[:-2]`: drop the last two characters. -/
def pySliceDropTwo (s : String) : String := String.mk s.data.dropLast.dropLast

/-- Concatenation of a list of strings. -/
def strConcat (l : List String) : String := l.foldr (fun a b => a ++ b) ""

/-- Join a list of strings with a separator (Python `sep.join`). -/
def sepJoin (sep : String) : List String → String
  | [] => ""
  | [x] => x
  | x :: y :: tl => x ++ sep ++ sepJoin sep (y :: tl)

/-- Python dict assignment `d[k] = v` on an insertion-ordered association
list: overwrite in place when the key exists, append otherwise. -/
def dictInsert (d : List (String × String)) (k v : String) : List (String × String) :=
  if d.any (fun p => p.1 = k) then d.map (fun p => if p.1 = k then (k, v) else p)
  else d ++ [(k, v)]

/-- Python `d.update(upd)`: insert every pair of `upd` in order. -/
def dictUpdate (d upd : List (String × String)) : List (String × String) :=
  upd.foldl (fun acc p => dictInsert acc p.1 p.2) d

/-- `filter_excluded_accounts` (account_ids.py lines 115-134): rebuilds each
OU's account list, dropping an account when the OU key or the account name is
in `excluded_accounts`.  (The Python function mutates its argument in place
and returns it; the returned value is modelled here.) -/
def filter_excluded_accounts (org_account_list : OrgTree) (excluded_accounts : List String) :
    OrgTree :=
  org_account_list.map fun e =>
    (e.1, e.2.filter fun acc =>
      !(decide (e.1 ∈ excluded_accounts) || decide (acc.name ∈ excluded_accounts)))

/-- Loop body of `account_ids_from_ou`: iterate the requested OU names; a
missing key makes `dict.get` return `None` and the `for` loop over it raise
`TypeError`. -/
def account_ids_from_ou_aux (accounts : List (String × String)) :
    List String → OrgTree → Except String (List (String × String))
  | [], _ => .ok accounts
  | ou :: tl, t =>
    match t.lookup ou with
    | none => .error ("TypeError: argument of type NoneType is not iterable")
    | some account_list =>
      account_ids_from_ou_aux
        (account_list.foldl (fun d a => dictInsert d a.name a.id) accounts) tl t

/-- `account_ids_from_ou` (account_ids.py lines 137-154). -/
def account_ids_from_ou (ou_target_accounts : List String) (ou_with_all_accounts : OrgTree) :
    Except String (List (String × String)) :=
  account_ids_from_ou_aux [] ou_target_accounts ou_with_all_accounts

/-- Inner-loop body of `account_ids_from_name`: when the scanned account's
name is still in the remaining search list, remove it (Python `list.remove`
drops the first occurrence) and record the account's id. -/
def nameScanStep (st : List String × List (String × String)) (account : Account) :
    List String × List (String × String) :=
  if account.name ∈ st.1 then
    (st.1.erase account.name, dictInsert st.2 account.name account.id)
  else st

/-- `account_ids_from_name` (account_ids.py lines 157-177): scan every OU's
account list in tree order, matching names against the remaining search
list. -/
def account_ids_from_name (deployment_target_accounts : List String)
    (ou_org_accounts : OrgTree) : List (String × String) :=
  (ou_org_accounts.foldl (fun st e => e.2.foldl nameScanStep st)
    (deployment_target_accounts, [])).2

/-- Python values fed to `format_value`: strings, booleans, integers, lists
and dicts (insertion-ordered). -/
inductive PyVal where
  | str (s : String)
  | boolean (b : Bool)
  | int (n : Int)
  | list (xs : List PyVal)
  | dict (kvs : List (String × PyVal))

/-- Result of Python `format_value`: either a `str` or a bare `int` (the
`isinstance(value, int)` branch returns the integer itself, not a string). -/
inductive PyFmt where
  | fstr (s : String)
  | fint (n : Int)
deriving DecidableEq

/-- Python `str(x)` / f-string interpolation of a `format_value` result. -/
def pyStr : PyFmt → String
  | .fstr s => s
  | .fint n => toString n

/-- Whether a `format_value` result is a Python `str` (required by
`str.join`). -/
def PyFmt.isStr : PyFmt → Bool
  | .fstr _ => true
  | .fint _ => false

/-- `not isinstance(v, (dict, list))`. -/
def PyVal.isScalar : PyVal → Bool
  | .list _ => false
  | .dict _ => false
  | _ => true

/-- `'  ' * indent`. -/
def indentSpace (n : Nat) : String := strConcat (List.replicate n "  ")

mutual

/-- `format_value` (account_ids.py lines 306-352).  The flat-list branch uses
`", ".join(...)`, which raises `TypeError` when an element formatted to a bare
integer; the multi-line branches interpolate through f-strings, which
stringify integers. -/
def format_value : PyVal → Nat → Except String PyFmt
  | .str s, _ =>
      if pyStartsWith s ("module.") then .ok (.fstr s)
      else .ok (.fstr ("\"" ++ s ++ "\""))
  | .boolean b, _ => .ok (.fstr (if b then "true" else "false"))
  | .int n, _ => .ok (.fint n)
  | .list xs, indent =>
      if xs.all PyVal.isScalar then
        match formatEach xs (indent + 1) with
        | .error e => .error e
        | .ok parts =>
          if parts.all PyFmt.isStr then
            .ok (.fstr ("[" ++ String.intercalate (", ") (parts.map pyStr) ++ "]"))
          else .error ("TypeError: sequence item: expected str instance, int found")
      else
        match formatEach xs (indent + 1) with
        | .error e => .error e
        | .ok parts =>
          .ok (.fstr ("[\n" ++ String.intercalate (",\n")
            (parts.map fun p => indentSpace (indent + 1) ++ "  " ++ pyStr p)
            ++ "\n" ++ indentSpace (indent + 1) ++ "]"))
  | .dict kvs, indent =>
      match formatKVs kvs (indent + 1) with
      | .error e => .error e
      | .ok parts =>
        .ok (.fstr ("\x7b\n" ++ String.intercalate ("\n")
          (parts.map fun p => indentSpace (indent + 1) ++ "  " ++ p.1 ++ " = " ++ pyStr p.2)
          ++ "\n" ++ indentSpace (indent + 1) ++ "\x7d"))

/-- Format the elements of a list in order, propagating the first error
(Python evaluates the generator inside `join` element by element). -/
def formatEach : List PyVal → Nat → Except String (List PyFmt)
  | [], _ => .ok []
  | v :: tl, indent =>
    match format_value v indent with
    | .error e => .error e
    | .ok f =>
      match formatEach tl indent with
      | .error e => .error e
      | .ok r => .ok (f :: r)

/-- Format the values of a dict in order, propagating the first error. -/
def formatKVs : List (String × PyVal) → Nat → Except String (List (String × PyFmt))
  | [], _ => .ok []
  | (k, v) :: tl, indent =>
    match format_value v indent with
    | .error e => .error e
    | .ok f =>
      match formatKVs tl indent with
      | .error e => .error e
      | .ok r => .ok ((k, f) :: r)

end

/-- The text appended for one `(region, account)` pair by the loop body of
`create_provider_code` (account_ids.py lines 213-231). -/
def providerBlock (region account_name account_id : String) : String :=
  if account_name = "Management" then
    "provider \"aws\" \x7b\n  region = \"" ++ region ++ "\"\n\x7d\n\n"
  else
    "provider \"aws\" \x7b\n  assume_role \x7b\n    role_arn = \"arn:aws:iam::"
      ++ account_id ++ ":role/OrganizationAccountAccessRole\"\n  \x7d\n  alias  = \""
      ++ region ++ "-" ++ pyLower account_name ++ "\"\n  region = \"" ++ region
      ++ "\"\n\x7d\n\n"

/-- `create_provider_code` (account_ids.py lines 199-237): regions outer,
accounts inner, one block per pair. -/
def create_provider_code (regions : List String)
    (account_ids_by_name : List (String × String)) : String :=
  regions.foldl (fun code region =>
    account_ids_by_name.foldl (fun code p => code ++ providerBlock region p.1 p.2) code) ""

/-- A `variables:` entry of a module: `{name, value}`. -/
structure TfVar where
  name : String
  value : PyVal

/-- The variable lines of one module block: `  <name> = <formatted>\n` per
declared variable, in declared order (account_ids.py lines 277-282). -/
def variableLines (vars : List TfVar) : Except String String :=
  vars.foldlM (fun code v =>
    match format_value v.value 0 with
    | .error e => .error e
    | .ok f => .ok (code ++ "  " ++ v.name ++ " = " ++ pyStr f ++ "\n")) ""

/-- The `depends_on` text of one module block (account_ids.py lines 289-295):
build `"  depends_on = [ "` plus `"module.<dep>-<region>, "` per dependency,
then drop the trailing comma-space with `[:-2]` and close the list. -/
def dependsOnText (dependencies : List String) (region : String) : String :=
  if dependencies.isEmpty then ""
  else
    pySliceDropTwo (dependencies.foldl
      (fun code dependent => code ++ "module." ++ dependent ++ "-" ++ region ++ ", ")
      ("  depends_on = [ ")) ++ " ]\n"

/-- The text appended for one `(region, account)` pair by the loop body of
`create_module_code` (account_ids.py lines 270-298). -/
def moduleBlock (module_name module_source : String) (vars : List TfVar)
    (module_dependencies : List String) (region account_name0 : String) :
    Except String String :=
  match variableLines vars with
  | .error e => .error e
  | .ok varText =>
    .ok ("module \"" ++ module_name ++ "-" ++ region ++ "-" ++ pyLower account_name0
      ++ "\" \x7b\n  source = \"" ++ module_source ++ "\"\n" ++ varText
      ++ (if pyLower account_name0 ≠ "management" then
            "  providers = \x7b\n    aws = aws." ++ region ++ "-" ++ pyLower account_name0
              ++ "\n    \x7d\n"
          else "")
      ++ dependsOnText module_dependencies region ++ "\x7d\n\n")

/-- `create_module_code` (account_ids.py lines 249-303), up to the
`write_to_file` side effect: regions outer, resolved accounts inner. -/
def create_module_code (module_name module_source : String)
    (deployment_account_ids : List (String × String)) (regions : List String)
    (vars : List TfVar) (module_dependencies : List String) : Except String String :=
  regions.foldlM (fun code region =>
    deployment_account_ids.foldlM (fun code p =>
      match moduleBlock module_name module_source vars module_dependencies region p.1 with
      | .error e => .error e
      | .ok b => .ok (code ++ b)) code) ""

/-- One `terraformModules` entry of the configuration.  `deploymentTarget` is
the `deploymentTargets` dict, modelled as an insertion-ordered association
list from key (`"organizationalUnits"`, `"accounts"`, `"excludedAccounts"`)
to its list value. -/
structure TfModule where
  name : String
  source : String
  regions : List String
  vars : List TfVar
  dependsOn : List String
  deploymentTarget : List (String × List String)

/-- The mutable state of a `deploy_targets` run: the shared
`ou_with_all_accounts` dict, the process-wide `ALL_REGIONS` set (modelled as
an insertion-ordered list), and the sequence of `write_to_file` events. -/
structure PlannerState where
  tree : OrgTree
  allRegions : List String
  writes : List (String × String)
deriving DecidableEq

/-- Python `set.add` on the insertion-ordered model of `ALL_REGIONS`. -/
def regionsInsert (regions : List String) (region : String) : List String :=
  if region ∈ regions then regions else regions ++ [region]

/-- `account_ids_by_name` built once per run from every account of every OU
entry (account_ids.py lines 407-410). -/
def build_account_ids_by_name (tree : OrgTree) : List (String × String) :=
  tree.foldl (fun acc e => e.2.foldl (fun acc a => dictInsert acc a.name a.id) acc) []

/-- The `for target in deployment_target` resolution loop (account_ids.py
lines 448-480): keys other than `organizationalUnits` / `accounts` are
skipped; a failing OU lookup aborts the run (modelled as `Except.error`). -/
def resolve_targets (deployment_target : List (String × List String))
    (all_org_accounts_copy : OrgTree) : Except String (List (String × String)) :=
  deployment_target.foldlM (fun acc kv =>
    if kv.1 = "organizationalUnits" then
      let ou_target_accounts := (deployment_target.lookup ("organizationalUnits")).getD []
      if ou_target_accounts.isEmpty then .ok acc
      else
        match account_ids_from_ou ou_target_accounts all_org_accounts_copy with
        | .error e => .error e
        | .ok found => .ok (dictUpdate acc found)
    else if kv.1 = "accounts" then
      let account_targets := (deployment_target.lookup ("accounts")).getD []
      if account_targets.isEmpty then .ok acc
      else .ok (dictUpdate acc (account_ids_from_name account_targets all_org_accounts_copy))
    else .ok acc) []

/-- One iteration of the `for tf_module in tf_modules` loop of
`deploy_targets` (account_ids.py lines 417-502).  Returns the state after the
pass and `true` when the run continues (`false` models the early `return` /
uncaught exception paths).  Note the exclusion step passes the shared
`ou_with_all_accounts` — not the per-module deep copy — to
`filter_excluded_accounts`, which rebinds every key of that dict, so the
filtered tree is carried into the shared state. -/
def excludedAccountsOf (deployment_target : List (String × List String)) : List String :=
  if (deployment_target.lookup ("excludedAccounts")).isSome then
    (deployment_target.lookup ("excludedAccounts")).getD []
  else []

/-- The tree a pass works on after its exclusion step.  Because the Python
filter mutates the shared dict in place, this is also the shared tree carried
into the rest of the run. -/
def passTree (st : PlannerState) (tf_module : TfModule) : OrgTree :=
  if (excludedAccountsOf tf_module.deploymentTarget).isEmpty then st.tree
  else filter_excluded_accounts st.tree (excludedAccountsOf tf_module.deploymentTarget)

def module_pass (account_ids_by_name : List (String × String)) (all_modules : List String)
    (st : PlannerState) (tf_module : TfModule) : PlannerState × Bool :=
  match resolve_targets tf_module.deploymentTarget (passTree st tf_module) with
  | .error _ =>
    (⟨passTree st tf_module, tf_module.regions.foldl regionsInsert st.allRegions,
      st.writes⟩, false)
  | .ok deployment_target_accounts =>
    if tf_module.dependsOn.any (fun d => !(decide (d ∈ all_modules))) then
      (⟨passTree st tf_module, tf_module.regions.foldl regionsInsert st.allRegions,
        st.writes⟩, false)
    else
      match create_module_code tf_module.name tf_module.source deployment_target_accounts
          tf_module.regions tf_module.vars tf_module.dependsOn with
      | .error _ =>
          (⟨passTree st tf_module, tf_module.regions.foldl regionsInsert st.allRegions,
            st.writes ++ [("terraform/provider.tf",
              create_provider_code (tf_module.regions.foldl regionsInsert st.allRegions)
                account_ids_by_name)]⟩, false)
      | .ok module_code =>
          (⟨passTree st tf_module, tf_module.regions.foldl regionsInsert st.allRegions,
            st.writes ++ [("terraform/provider.tf",
              create_provider_code (tf_module.regions.foldl regionsInsert st.allRegions)
                account_ids_by_name),
              ("terraform/" ++ tf_module.name ++ ".tf", module_code)]⟩, true)

/-- Run the module loop from a given state, stopping at the first aborted
pass. -/
def run_from (account_ids_by_name : List (String × String)) (all_modules : List String) :
    PlannerState → List TfModule → PlannerState
  | st, [] => st
  | st, m :: tl =>
    match module_pass account_ids_by_name all_modules st m with
    | (st', true) => run_from account_ids_by_name all_modules st' tl
    | (st', false) => st'

/-- Whether every pass of the module loop completes without aborting. -/
def run_ok (account_ids_by_name : List (String × String)) (all_modules : List String) :
    PlannerState → List TfModule → Bool
  | _, [] => true
  | st, m :: tl =>
    match module_pass account_ids_by_name all_modules st m with
    | (st', true) => run_ok account_ids_by_name all_modules st' tl
    | (_, false) => false

/-- `deploy_targets` (account_ids.py lines 377-503), starting from an
already-built `ou_with_all_accounts` tree. -/
def deploy_targets (ou_with_all_accounts : OrgTree) (tf_modules : List TfModule) :
    PlannerState :=
  run_from (build_account_ids_by_name ou_with_all_accounts) (tf_modules.map (·.name))
    ⟨ou_with_all_accounts, [], []⟩ tf_modules

/-- The accumulated `ALL_REGIONS` value after processing a list of modules. -/
def regionsUnion (mods : List TfModule) (init : List String) : List String :=
  mods.foldl (fun acc m => m.regions.foldl regionsInsert acc) init

/-- Number of (possibly overlapping) occurrences of a pattern in a character
list. -/
def countOccurAux : List Char → List Char → Nat
  | [], _ => 0
  | c :: tl, pat => (if pat.isPrefixOf (c :: tl) then 1 else 0) + countOccurAux tl pat

/-- Number of occurrences of `pat` in `s`. -/
def countOccur (s pat : String) : Nat := countOccurAux s.data pat.data

/-- All accounts of a tree, flattened in tree order. -/
def flatAccounts (tree : OrgTree) : List Account := tree.flatMap (fun e => e.2)

/-- The first account in tree order bearing a given name. -/
def firstAccountNamed (tree : OrgTree) (n : String) : Option Account :=
  (flatAccounts tree).find? (fun a => a.name = n)

/-- Modelled from the spec (§4.2 `withExclusions`): an OU path exactly
matching an excluded entry has its account list cleared; elsewhere only
accounts whose name matches an excluded entry are removed. -/
def withExclusionsSpec (tree : OrgTree) (excluded : List String) : OrgTree :=
  tree.map fun e =>
    (e.1, if e.1 ∈ excluded then []
          else e.2.filter fun a => !(decide (a.name ∈ excluded)))

/-- Modelled from the spec (§4.3 provider-block emission): the data of one
provider block — its region, an optional assumed-role ARN and an optional
alias. -/
structure ProviderSpec where
  region : String
  assumeRoleArn : Option String
  aliasName : Option String
deriving DecidableEq

/-- Render a `ProviderSpec` as a provider block. -/
def renderProviderSpec (p : ProviderSpec) : String :=
  "provider \"aws\" \x7b\n"
  ++ (match p.assumeRoleArn with
      | some arn => "  assume_role \x7b\n    role_arn = \"" ++ arn ++ "\"\n  \x7d\n"
      | none => "")
  ++ (match p.aliasName with
      | some al => "  alias  = \"" ++ al ++ "\"\n"
      | none => "")
  ++ "  region = \"" ++ p.region ++ "\"\n\x7d\n\n"

/-- Modelled from the spec (§4.3): the management account gets a bare
region-scoped provider; every other account gets the fixed cross-account role
on its id, aliased `"<region>-<lowercased-name>"`. -/
def providerSpecOf (region account_name account_id : String) : ProviderSpec :=
  if account_name = "Management" then ⟨region, none, none⟩
  else
    ⟨region, some ("arn:aws:iam::" ++ account_id ++ ":role/OrganizationAccountAccessRole"),
      some (region ++ "-" ++ pyLower account_name)⟩

/-- Modelled from the spec (§4.3 module-block emission): the data of one
module block — its name, source, variable-lines text, optional provider-alias
reference and per-region dependency references. -/
structure ModuleBlockSpec where
  blockName : String
  src : String
  varText : String
  providerAliasRef : Option String
  dependsOnRefs : List String
deriving DecidableEq

/-- Render a `ModuleBlockSpec` as a module block. -/
def renderModuleBlockSpec (b : ModuleBlockSpec) : String :=
  "module \"" ++ b.blockName ++ "\" \x7b\n"
  ++ "  source = \"" ++ b.src ++ "\"\n"
  ++ b.varText
  ++ (match b.providerAliasRef with
      | some a => "  providers = \x7b\n    aws = " ++ a ++ "\n    \x7d\n"
      | none => "")
  ++ (match b.dependsOnRefs with
      | [] => ""
      | r :: tl => "  depends_on = [ " ++ sepJoin (", ") (r :: tl) ++ " ]\n")
  ++ "\x7d\n\n"

/-- Modelled from the spec (§4.3): the module block for one
`(region, account)` pair: named `"<module>-<region>-<lowercased-name>"`, the
provider-alias reference omitted exactly for the management account, and one
`"module.<dep>-<region>"` dependency reference per declared dependency. -/
def moduleBlockSpecOf (module_name module_source varText : String) (deps : List String)
    (region account_name : String) : ModuleBlockSpec :=
  { blockName := module_name ++ "-" ++ region ++ "-" ++ pyLower account_name
    src := module_source
    varText := varText
    providerAliasRef :=
      if pyLower account_name = "management" then none
      else some ("aws." ++ region ++ "-" ++ pyLower account_name)
    dependsOnRefs := deps.map fun d => "module." ++ d ++ "-" ++ region }

/-! ### Generic helper lemmas about the string and dictionary models -/

theorem string_empty_append (s : String) : "" ++ s = s := rfl

theorem string_append_empty (s : String) : s ++ "" = s := by
  apply String.ext
  simp [String.data_append]

theorem string_append_assoc (a b c : String) : a ++ b ++ c = a ++ (b ++ c) := by
  apply String.ext
  simp [String.data_append]

theorem strConcat_nil : strConcat [] = "" := rfl

theorem strConcat_cons (a : String) (l : List String) :
    strConcat (a :: l) = a ++ strConcat l := rfl

theorem strConcat_append (l1 l2 : List String) :
    strConcat (l1 ++ l2) = strConcat l1 ++ strConcat l2 := by
  induction l1 with
  | nil => simp [strConcat_nil, string_empty_append]
  | cons a tl ih =>
    simp only [List.cons_append, strConcat_cons, ih, string_append_assoc]

theorem strConcat_flatMap {α : Type} (l : List α) (f : α → List String) :
    strConcat (l.flatMap f) = strConcat (l.map fun a => strConcat (f a)) := by
  induction l with
  | nil => rfl
  | cons a tl ih =>
    simp only [List.flatMap_cons, List.map_cons, strConcat_cons, strConcat_append, ih]

theorem foldl_append_strConcat {α : Type} (g : α → String) (l : List α) (s : String) :
    l.foldl (fun acc a => acc ++ g a) s = s ++ strConcat (l.map g) := by
  induction l generalizing s with
  | nil => simp [strConcat_nil, string_append_empty]
  | cons a tl ih =>
    simp only [List.foldl_cons, List.map_cons, strConcat_cons, ih, string_append_assoc]

theorem pySliceDropTwo_append (s : String) : pySliceDropTwo (s ++ ", ") = s := by
  apply String.ext
  show ((s ++ ", ").data).dropLast.dropLast = s.data
  rw [String.data_append]
  rw [show (s.data ++ (", ").data) = (s.data ++ [',']) ++ [' '] by simp]
  rw [List.dropLast_concat, List.dropLast_concat]

theorem sepJoin_comma_suffixed {α : Type} (h : α → String) (x : α) (l : List α) :
    strConcat ((x :: l).map (fun a => h a ++ ", "))
      = sepJoin (", ") ((x :: l).map h) ++ ", " := by
  induction l generalizing x with
  | nil => simp [strConcat_cons, strConcat_nil, sepJoin, string_append_empty]
  | cons y tl ih =>
    simp only [List.map_cons, strConcat_cons, sepJoin] at *
    rw [ih y]
    simp [string_append_assoc]

/-! ### C6 and C1 -/

/-- C6: code-bug evidence.  The claim says a list whose elements are all
scalars renders as a single-line bracketed comma-separated list and integers
render as bare numerals; but `format_value` returns a bare Python `int` for an
integer, and the flat-list branch feeds those results to `", ".join`, which
raises `TypeError`.  So `[1]` raises instead of rendering `"[1]"`, while the
same integer at top level or inside a multi-line (f-string) context formats
fine. -/
theorem format_value_flat_int_list_raises :
    format_value (.list [.int 1]) 0
      = .error ("TypeError: sequence item: expected str instance, int found")
    ∧ format_value (.int 1) 0 = .ok (.fint 1)
    ∧ format_value (.list [.int 1, .dict [("a", .int 2)]]) 0
      = .ok (.fstr ("[\n    1,\n    \x7b\n      a = 2\n    \x7d\n  ]")) := by
  refine ⟨rfl, rfl, rfl⟩

set_option maxRecDepth 100000 in
/-- C1: code-bug evidence.  `deploy_targets` deep-copies the shared tree into
`all_org_accounts_copy`, but then calls `filter_excluded_accounts` on the
shared `ou_with_all_accounts` itself, and that function rebinds every key of
its argument in place.  After a first module pass that excludes `"Sandbox"`,
the shared tree has lost the `Sandbox` account, and a later module with no
exclusions of its own resolves (and generates code for) a tree without it:
its generated `terraform/m2.tf` (write event 3) contains no `sandbox` block
even though its own pass excluded nothing. -/
theorem exclusion_filter_mutates_shared_tree :
    (run_from
        (build_account_ids_by_name
          [("root", [⟨"Management", "111111111111"⟩, ⟨"Audit", "222222222222"⟩,
            ⟨"Sandbox", "333333333333"⟩])])
        ["m1", "m2"]
        ⟨[("root", [⟨"Management", "111111111111"⟩, ⟨"Audit", "222222222222"⟩,
            ⟨"Sandbox", "333333333333"⟩])], [], []⟩
        [{ name := "m1", source := "s1", regions := ["eu-west-2"], vars := [],
           dependsOn := [],
           deploymentTarget := [("excludedAccounts", ["Sandbox"]),
             ("organizationalUnits", ["root"])] }]).tree
      = [("root", [⟨"Management", "111111111111"⟩, ⟨"Audit", "222222222222"⟩])]
    ∧ ([("root", [⟨"Management", "111111111111"⟩, ⟨"Audit", "222222222222"⟩])] : OrgTree)
      ≠ [("root", [⟨"Management", "111111111111"⟩, ⟨"Audit", "222222222222"⟩,
          ⟨"Sandbox", "333333333333"⟩])]
    ∧ ((deploy_targets
          [("root", [⟨"Management", "111111111111"⟩, ⟨"Audit", "222222222222"⟩,
            ⟨"Sandbox", "333333333333"⟩])]
          [{ name := "m1", source := "s1", regions := ["eu-west-2"], vars := [],
             dependsOn := [],
             deploymentTarget := [("excludedAccounts", ["Sandbox"]),
               ("organizationalUnits", ["root"])] },
           { name := "m2", source := "s2", regions := ["eu-west-2"], vars := [],
             dependsOn := [],
             deploymentTarget := [("organizationalUnits", ["root"])] }]).writes.get? 3).map
        (fun w => (w.1, countOccur w.2 ("sandbox")))
      = some ("terraform/m2.tf", 0) := by
  refine ⟨by decide, by decide, by decide⟩

/-! ### C2: filter_excluded_accounts -/

theorem filter_excluded_entry (ou : String) (accs : List Account) (excl : List String) :
    (accs.filter fun acc =>
        !(decide (ou ∈ excl) || decide (acc.name ∈ excl)))
      = if ou ∈ excl then [] else accs.filter fun a => !(decide (a.name ∈ excl)) := by
  by_cases h : ou ∈ excl
  · simp [h]
  · simp [h]

theorem filter_excluded_eq_spec (t : OrgTree) (excl : List String) :
    filter_excluded_accounts t excl = withExclusionsSpec t excl := by
  induction t with
  | nil => rfl
  | cons e tl ih =>
    simp only [filter_excluded_accounts, withExclusionsSpec, List.map_cons] at *
    rw [filter_excluded_entry]
    exact congrArg _ ih

/-- C2: confirmed.  `filter_excluded_accounts` equals the specified
`withExclusions`: the OU-path keys are preserved; an OU whose path exactly
equals an excluded entry is cleared to the empty list; any other OU (in
particular a sub-path of an excluded path) keeps, in order, exactly those of
its accounts whose name is not excluded. -/
theorem filter_excluded_accounts_spec (t : OrgTree) (excl : List String) :
    filter_excluded_accounts t excl = withExclusionsSpec t excl
    ∧ (filter_excluded_accounts t excl).map (fun e => e.1) = t.map (fun e => e.1)
    ∧ (∀ ou accs, (ou, accs) ∈ t → ou ∈ excl →
        (ou, ([] : List Account)) ∈ filter_excluded_accounts t excl)
    ∧ (∀ ou accs, (ou, accs) ∈ t → ou ∉ excl →
        (ou, accs.filter fun a => !(decide (a.name ∈ excl)))
          ∈ filter_excluded_accounts t excl) := by
  refine ⟨filter_excluded_eq_spec t excl, ?_, ?_, ?_⟩
  · rw [filter_excluded_eq_spec]
    simp [withExclusionsSpec, List.map_map]
  · intro ou accs hmem hex
    rw [filter_excluded_eq_spec]
    unfold withExclusionsSpec
    rw [List.mem_map]
    exact ⟨(ou, accs), hmem, by simp [hex]⟩
  · intro ou accs hmem hex
    rw [filter_excluded_eq_spec]
    unfold withExclusionsSpec
    rw [List.mem_map]
    exact ⟨(ou, accs), hmem, by simp [hex]⟩

/-- C2 witness: a concrete tree where the excluded entries are the OU path
`"Workloads"` and the account name `"B"`: `"Workloads"` is cleared, its
sub-path `"Workloads/Dev"` is not cleared and keeps `A` while losing `B`. -/
theorem filter_excluded_accounts_spec_witness :
    (("Workloads", [⟨"A", "1"⟩]) ∈
        ([("Workloads", [⟨"A", "1"⟩]), ("Workloads/Dev", [⟨"A", "2"⟩, ⟨"B", "3"⟩])] : OrgTree))
    ∧ ("Workloads" : String) ∈ (["Workloads", "B"] : List String)
    ∧ (("Workloads", ([] : List Account)) ∈
        filter_excluded_accounts
          [("Workloads", [⟨"A", "1"⟩]), ("Workloads/Dev", [⟨"A", "2"⟩, ⟨"B", "3"⟩])]
          ["Workloads", "B"])
    ∧ (("Workloads/Dev", [(⟨"A", "2"⟩ : Account)]) ∈
        filter_excluded_accounts
          [("Workloads", [⟨"A", "1"⟩]), ("Workloads/Dev", [⟨"A", "2"⟩, ⟨"B", "3"⟩])]
          ["Workloads", "B"]) := by
  refine ⟨by decide, by decide, ?_, ?_⟩
  · exact (filter_excluded_accounts_spec
      [("Workloads", [⟨"A", "1"⟩]), ("Workloads/Dev", [⟨"A", "2"⟩, ⟨"B", "3"⟩])]
      ["Workloads", "B"]).2.2.1 "Workloads" [⟨"A", "1"⟩] (by decide) (by decide)
  · have h := (filter_excluded_accounts_spec
      [("Workloads", [⟨"A", "1"⟩]), ("Workloads/Dev", [⟨"A", "2"⟩, ⟨"B", "3"⟩])]
      ["Workloads", "B"]).2.2.2 "Workloads/Dev" [⟨"A", "2"⟩, ⟨"B", "3"⟩]
      (by decide) (by decide)
    simpa using h

/-! ### C8: account_ids_from_ou fails on a missing OU path -/

theorem lookup_none_of_not_key (t : OrgTree) (k : String) (h : k ∉ t.map (fun e => e.1)) :
    t.lookup k = none := by
  induction t with
  | nil => rfl
  | cons e tl ih =>
    simp only [List.map_cons, List.mem_cons, not_or] at h
    have hb : (k == e.1) = false := beq_false_of_ne h.1
    simp [List.lookup, hb, ih h.2]

theorem lookup_isSome_of_key (t : OrgTree) (k : String) (h : k ∈ t.map (fun e => e.1)) :
    (t.lookup k).isSome := by
  induction t with
  | nil => cases h
  | cons e tl ih =>
    simp only [List.map_cons, List.mem_cons] at h
    by_cases hk : k = e.1
    · simp [List.lookup, hk]
    · have : k ∈ tl.map (fun e => e.1) := h.resolve_left hk
      have hb : (k == e.1) = false := beq_false_of_ne hk
      simp [List.lookup, hb, ih this]

theorem account_ids_from_ou_aux_missing :
    ∀ (ous : List String) (t : OrgTree) (acc : List (String × String)),
      (∃ ou ∈ ous, ou ∉ t.map (fun e => e.1)) →
      ∃ e, account_ids_from_ou_aux acc ous t = .error e := by
  intro ous
  induction ous with
  | nil =>
    intro t acc h
    obtain ⟨ou, hmem, _⟩ := h
    cases hmem
  | cons o tl ih =>
    intro t acc h
    obtain ⟨ou, hmem, hnk⟩ := h
    cases hlk : t.lookup o with
    | none =>
      exact ⟨"TypeError: argument of type NoneType is not iterable",
        by simp [account_ids_from_ou_aux, hlk]⟩
    | some l =>
      rcases List.mem_cons.mp hmem with rfl | htl
      · rw [lookup_none_of_not_key t ou hnk] at hlk
        cases hlk
      · have := ih t (l.foldl (fun d a => dictInsert d a.name a.id) acc) ⟨ou, htl, hnk⟩
        simpa [account_ids_from_ou_aux, hlk] using this

/-- C8: confirmed.  Whenever some requested OU path is not a key of the tree,
`account_ids_from_ou` fails (the Python `dict.get` returns `None` and the
`for` loop over it raises `TypeError`, modelled as `Except.error`); it never
returns a result mapping in that case. -/
theorem account_ids_from_ou_missing_path_errors (ous : List String) (t : OrgTree)
    (h : ∃ ou ∈ ous, ou ∉ t.map (fun e => e.1)) :
    ∃ e, account_ids_from_ou ous t = .error e :=
  account_ids_from_ou_aux_missing ous t [] h

/-- C8 witness: requesting the missing path `"Workloads/Missing"` fails even
though the other requested path exists. -/
theorem account_ids_from_ou_missing_path_errors_witness :
    (∃ ou ∈ (["root", "Workloads/Missing"] : List String),
        ou ∉ ([("root", [⟨"A", "1"⟩])] : OrgTree).map (fun e => e.1))
    ∧ ∃ e, account_ids_from_ou ["root", "Workloads/Missing"] [("root", [⟨"A", "1"⟩])]
        = .error e :=
  ⟨⟨"Workloads/Missing", by decide, by decide⟩,
    account_ids_from_ou_missing_path_errors ["root", "Workloads/Missing"]
      [("root", [⟨"A", "1"⟩])] ⟨"Workloads/Missing", by decide, by decide⟩⟩


/-! ### C9: account_ids_from_ou on the full key set versus flattening -/

theorem dictInsert_fresh (d : List (String × String)) (k v : String)
    (h : k ∉ d.map (fun p => p.1)) : dictInsert d k v = d ++ [(k, v)] := by
  unfold dictInsert
  rw [if_neg]
  simp only [List.any_eq_true, decide_eq_true_eq, not_exists]
  intro p hp
  exact h (hp.2 ▸ List.mem_map_of_mem (f := fun p => p.1) hp.1)

theorem foldl_dictInsert_fresh (l : List Account) :
    ∀ d : List (String × String),
      (∀ a ∈ l, a.name ∉ d.map (fun p => p.1)) →
      (l.map (fun a => a.name)).Nodup →
      l.foldl (fun d a => dictInsert d a.name a.id) d
        = d ++ l.map (fun a => (a.name, a.id)) := by
  induction l with
  | nil => intro d _ _; simp
  | cons a tl ih =>
    intro d hd hn
    simp only [List.foldl_cons]
    rw [dictInsert_fresh d a.name a.id (hd a (List.mem_cons_self a tl))]
    rw [ih (d ++ [(a.name, a.id)]) ?fresh ?nodup]
    · simp
    case fresh =>
      intro b hb
      simp only [List.map_append, List.mem_append, not_or]
      refine ⟨hd b (List.mem_cons_of_mem a hb), ?_⟩
      simp only [List.map_cons, List.nodup_cons] at hn
      have hba : b.name ≠ a.name := by
        intro hcon
        exact hn.1 (hcon ▸ List.mem_map_of_mem (f := fun a => a.name) hb)
      simp [hba]
    case nodup =>
      simp only [List.map_cons, List.nodup_cons] at hn
      exact hn.2

theorem account_ids_from_ou_aux_flatten :
    ∀ (ks : List String) (t : OrgTree) (acc : List (String × String)),
      (∀ k ∈ ks, k ∈ t.map (fun e => e.1)) →
      (acc.map (fun p => p.1)
        ++ ks.flatMap (fun k => ((t.lookup k).getD []).map (fun a => a.name))).Nodup →
      account_ids_from_ou_aux acc ks t
        = .ok (acc ++ ks.flatMap (fun k =>
            ((t.lookup k).getD []).map (fun a => (a.name, a.id)))) := by
  intro ks
  induction ks with
  | nil => intro t acc _ _; simp [account_ids_from_ou_aux]
  | cons k tl ih =>
    intro t acc hk hn
    have hks : (t.lookup k).isSome := lookup_isSome_of_key t k (hk k (List.mem_cons_self k tl))
    obtain ⟨l, hlk⟩ := Option.isSome_iff_exists.mp hks
    simp only [List.flatMap_cons, hlk, Option.getD_some] at hn ⊢
    rw [show account_ids_from_ou_aux acc (k :: tl) t
        = account_ids_from_ou_aux (l.foldl (fun d a => dictInsert d a.name a.id) acc) tl t
      from by simp [account_ids_from_ou_aux, hlk]]
    rw [← List.append_assoc] at hn
    have hsplit := hn
    rw [List.nodup_append] at hsplit
    have hfold : l.foldl (fun d a => dictInsert d a.name a.id) acc
        = acc ++ l.map (fun a => (a.name, a.id)) := by
      apply foldl_dictInsert_fresh
      · intro a ha hmem
        have h1 : (acc.map (fun p => p.1) ++ l.map (fun a => a.name)).Nodup := hsplit.1
        rw [List.nodup_append] at h1
        exact h1.2.2 hmem (List.mem_map_of_mem (f := fun a => a.name) ha)
      · have h1 : (acc.map (fun p => p.1) ++ l.map (fun a => a.name)).Nodup := hsplit.1
        rw [List.nodup_append] at h1
        exact h1.2.1
    rw [hfold]
    rw [ih t (acc ++ l.map (fun a => (a.name, a.id))) (fun k hk2 => hk k (List.mem_cons_of_mem _ hk2)) ?nodup2]
    · simp
    case nodup2 =>
      have : (acc ++ l.map (fun a => (a.name, a.id))).map (fun p => p.1)
          = acc.map (fun p => p.1) ++ l.map (fun a => a.name) := by
        simp [List.map_append, List.map_map]
      rw [this]
      exact hn

theorem flatMap_congr_mem {α β : Type} {l : List α} {f g : α → List β}
    (h : ∀ a ∈ l, f a = g a) : l.flatMap f = l.flatMap g := by
  induction l with
  | nil => rfl
  | cons a tl ih =>
    simp only [List.flatMap_cons]
    rw [h a (List.mem_cons_self a tl), ih (fun b hb => h b (List.mem_cons_of_mem a hb))]

theorem keys_flatMap_lookup {β : Type} (t : OrgTree) (hk : (t.map (fun e => e.1)).Nodup)
    (f : Account → β) :
    (t.map (fun e => e.1)).flatMap (fun k => ((t.lookup k).getD []).map f)
      = t.flatMap (fun e => e.2.map f) := by
  induction t with
  | nil => rfl
  | cons e tl ih =>
    simp only [List.map_cons, List.nodup_cons] at hk
    simp only [List.map_cons, List.flatMap_cons]
    have h1 : List.lookup e.1 (e :: tl) = some e.2 := by
      simp [List.lookup]
    rw [h1]
    simp only [Option.getD_some]
    congr 1
    rw [← ih hk.2]
    apply flatMap_congr_mem
    intro k hkm
    have hne : k ≠ e.1 := fun hcon => hk.1 (hcon ▸ hkm)
    have hb : (k == e.1) = false := beq_false_of_ne hne
    simp [List.lookup, hb]

/-- C9 counterexample: with two OUs each holding an account named `"A"` (ids
`"1"` and `"2"`), resolving the full key set returns only `("A", "2")`; the
pair `("A", "1")` from flattening is missing, so the claimed
no-omission equality fails as stated. -/
theorem account_ids_from_ou_duplicate_name_counterexample :
    account_ids_from_ou
        (([("root", [⟨"A", "1"⟩]), ("X", [⟨"A", "2"⟩])] : OrgTree).map (fun e => e.1))
        [("root", [⟨"A", "1"⟩]), ("X", [⟨"A", "2"⟩])]
      = .ok [("A", "2")]
    ∧ (("A", "1") : String × String) ∈
        ([("root", [⟨"A", "1"⟩]), ("X", [⟨"A", "2"⟩])] : OrgTree).flatMap
          (fun e => e.2.map (fun a => (a.name, a.id)))
    ∧ (("A", "1") : String × String) ∉ ([("A", "2")] : List (String × String)) := by
  refine ⟨by decide, by decide, by decide⟩

/-- C9: corrected.  When the OU keys are distinct (always true of a Python
dict) and account names are globally unique across the tree,
`account_ids_from_ou` applied to the full key list returns exactly the
name-to-id pairs obtained by flattening every OU's account list once.  With a
name shared by several accounts the claim fails (see the counterexample): the
later entry overwrites the earlier one. -/
theorem account_ids_from_ou_flatten (t : OrgTree)
    (hkeys : (t.map (fun e => e.1)).Nodup)
    (hnames : (t.flatMap (fun e => e.2.map (fun a => a.name))).Nodup) :
    account_ids_from_ou (t.map (fun e => e.1)) t
      = .ok (t.flatMap (fun e => e.2.map (fun a => (a.name, a.id)))) := by
  unfold account_ids_from_ou
  rw [account_ids_from_ou_aux_flatten (t.map (fun e => e.1)) t [] (fun k hk => hk) ?nodup]
  · rw [keys_flatMap_lookup t hkeys]
    simp
  case nodup =>
    simp only [List.map_nil, List.nil_append]
    rw [keys_flatMap_lookup t hkeys]
    exact hnames

/-- C9 witness: on a tree with distinct OU keys and globally distinct account
names, resolving the full key set is exactly the flattening. -/
theorem account_ids_from_ou_flatten_witness :
    (([("root", [⟨"M", "1"⟩]), ("Workloads/Dev", [⟨"D", "2"⟩, ⟨"E", "3"⟩])] : OrgTree).map
        (fun e => e.1)).Nodup
    ∧ (([("root", [⟨"M", "1"⟩]), ("Workloads/Dev", [⟨"D", "2"⟩, ⟨"E", "3"⟩])] : OrgTree).flatMap
        (fun e => e.2.map (fun a => a.name))).Nodup
    ∧ account_ids_from_ou
        (([("root", [⟨"M", "1"⟩]), ("Workloads/Dev", [⟨"D", "2"⟩, ⟨"E", "3"⟩])] : OrgTree).map
          (fun e => e.1))
        [("root", [⟨"M", "1"⟩]), ("Workloads/Dev", [⟨"D", "2"⟩, ⟨"E", "3"⟩])]
      = .ok (([("root", [⟨"M", "1"⟩]), ("Workloads/Dev", [⟨"D", "2"⟩, ⟨"E", "3"⟩])] : OrgTree).flatMap
          (fun e => e.2.map (fun a => (a.name, a.id)))) :=
  ⟨by decide, by decide,
    account_ids_from_ou_flatten
      [("root", [⟨"M", "1"⟩]), ("Workloads/Dev", [⟨"D", "2"⟩, ⟨"E", "3"⟩])]
      (by decide) (by decide)⟩

/-! ### C3: account_ids_from_name -/

theorem lookup_isSome_of_key_gen {β : Type} (t : List (String × β)) (k : String)
    (h : k ∈ t.map (fun e => e.1)) : (t.lookup k).isSome := by
  induction t with
  | nil => cases h
  | cons e tl ih =>
    simp only [List.map_cons, List.mem_cons] at h
    by_cases hk : k = e.1
    · simp [List.lookup, hk]
    · have : k ∈ tl.map (fun e => e.1) := h.resolve_left hk
      have hb : (k == e.1) = false := beq_false_of_ne hk
      simp [List.lookup, hb, ih this]

theorem not_key_of_lookup_none {β : Type} (t : List (String × β)) (k : String)
    (h : t.lookup k = none) : k ∉ t.map (fun e => e.1) := by
  intro hk
  have := lookup_isSome_of_key_gen t k hk
  rw [h] at this
  cases this

theorem lookup_append_single_ne {β : Type} (d : List (String × β)) (k n : String) (v : β)
    (h : n ≠ k) : (d ++ [(k, v)]).lookup n = d.lookup n := by
  induction d with
  | nil => simp [List.lookup, beq_false_of_ne h]
  | cons p tl ih =>
    cases hb : (n == p.1) <;> simp [List.lookup, hb, ih]

theorem lookup_map_overwrite_ne (d : List (String × String)) (k v n : String) (h : n ≠ k) :
    (d.map (fun p => if p.1 = k then (k, v) else p)).lookup n = d.lookup n := by
  induction d with
  | nil => rfl
  | cons p tl ih =>
    simp only [List.map_cons]
    by_cases hp : p.1 = k
    · rw [if_pos hp]
      have hb : (n == k) = false := beq_false_of_ne h
      have hb2 : (n == p.1) = false := beq_false_of_ne (by rw [hp]; exact h)
      simp [List.lookup, hb, hb2, ih]
    · rw [if_neg hp]
      cases hb : (n == p.1) <;> simp [List.lookup, hb, ih]

theorem dictInsert_lookup_ne (d : List (String × String)) (k v n : String) (h : n ≠ k) :
    (dictInsert d k v).lookup n = d.lookup n := by
  unfold dictInsert
  by_cases hc : d.any (fun p => decide (p.1 = k)) = true
  · simp only [hc, if_true]
    exact lookup_map_overwrite_ne d k v n h
  · simp only [hc, if_false]
    exact lookup_append_single_ne d k n v h

theorem lookup_append_self {β : Type} (d : List (String × β)) (k : String) (v : β)
    (h : d.lookup k = none) : (d ++ [(k, v)]).lookup k = some v := by
  induction d with
  | nil => simp [List.lookup]
  | cons p tl ih =>
    cases hb : (k == p.1) with
    | true => simp [List.lookup, hb] at h
    | false =>
      simp only [List.lookup, hb] at h
      simp [List.lookup, hb, ih h]

theorem dictInsert_lookup_self_fresh (d : List (String × String)) (k v : String)
    (h : d.lookup k = none) : (dictInsert d k v).lookup k = some v := by
  rw [dictInsert_fresh d k v (not_key_of_lookup_none d k h)]
  exact lookup_append_self d k v h

theorem scan_stable (L : List Account) :
    ∀ (rem : List String) (d : List (String × String)) (n : String), n ∉ rem →
      n ∉ (L.foldl nameScanStep (rem, d)).1 ∧
      (L.foldl nameScanStep (rem, d)).2.lookup n = d.lookup n := by
  induction L with
  | nil => intro rem d n hn; exact ⟨hn, rfl⟩
  | cons a tl ih =>
    intro rem d n hn
    simp only [List.foldl_cons]
    by_cases hm : a.name ∈ rem
    · rw [show nameScanStep (rem, d) a = (rem.erase a.name, dictInsert d a.name a.id) from
        by simp [nameScanStep, hm]]
      have hne : n ∉ rem.erase a.name := fun hc => hn (List.mem_of_mem_erase hc)
      have h2 := ih (rem.erase a.name) (dictInsert d a.name a.id) n hne
      refine ⟨h2.1, ?_⟩
      rw [h2.2]
      exact dictInsert_lookup_ne d a.name a.id n (fun hc => hn (hc ▸ hm))
    · rw [show nameScanStep (rem, d) a = (rem, d) from by simp [nameScanStep, hm]]
      exact ih rem d n hn

theorem scan_resolves (L : List Account) :
    ∀ (rem : List String) (d : List (String × String)), rem.Nodup →
      (∀ k ∈ rem, d.lookup k = none) →
      ∀ n ∈ rem, (L.foldl nameScanStep (rem, d)).2.lookup n
        = (L.find? (fun a => a.name = n)).map (fun a => a.id) := by
  induction L with
  | nil =>
    intro rem d _ hd n hn
    simp only [List.foldl_nil, List.find?_nil, Option.map_none']
    exact hd n hn
  | cons a tl ih =>
    intro rem d hnd hd n hn
    simp only [List.foldl_cons]
    by_cases hm : a.name ∈ rem
    · rw [show nameScanStep (rem, d) a = (rem.erase a.name, dictInsert d a.name a.id) from
        by simp [nameScanStep, hm]]
      by_cases han : a.name = n
      · subst han
        rw [List.find?_cons_of_pos _ (by simp)]
        have hstable := scan_stable tl (rem.erase a.name) (dictInsert d a.name a.id) a.name
          (fun hc => ((List.Nodup.mem_erase_iff hnd).mp hc).1 rfl)
        rw [hstable.2]
        simp only [Option.map_some']
        exact dictInsert_lookup_self_fresh d a.name a.id (hd a.name hm)
      · rw [List.find?_cons_of_neg _ (by simp [han])]
        refine ih (rem.erase a.name) (dictInsert d a.name a.id) (hnd.erase _) ?_ n
          ((List.Nodup.mem_erase_iff hnd).mpr ⟨fun hc => han hc.symm, hn⟩)
        intro k hk
        have hkr := (List.Nodup.mem_erase_iff hnd).mp hk
        rw [dictInsert_lookup_ne d a.name a.id k hkr.1]
        exact hd k hkr.2
    · rw [show nameScanStep (rem, d) a = (rem, d) from by simp [nameScanStep, hm]]
      have hnan : ¬(a.name = n) := fun hc => hm (hc ▸ hn)
      rw [List.find?_cons_of_neg _ (by simp [hnan])]
      exact ih rem d hnd hd n hn

theorem scan_sound (L : List Account) :
    ∀ (rem : List String) (d : List (String × String)), rem.Nodup →
      (∀ k ∈ rem, d.lookup k = none) →
      ∀ p ∈ (L.foldl nameScanStep (rem, d)).2,
        p ∈ d ∨ (p.1 ∈ rem ∧ L.find? (fun a => a.name = p.1) = some ⟨p.1, p.2⟩) := by
  induction L with
  | nil => intro rem d _ _ p hp; exact .inl hp
  | cons a tl ih =>
    intro rem d hnd hd p hp
    simp only [List.foldl_cons] at hp
    by_cases hm : a.name ∈ rem
    · rw [show nameScanStep (rem, d) a = (rem.erase a.name, dictInsert d a.name a.id) from
        by simp [nameScanStep, hm]] at hp
      have hres := ih (rem.erase a.name) (dictInsert d a.name a.id) (hnd.erase _) ?hd2 p hp
      case hd2 =>
        intro k hk
        have hkr := (List.Nodup.mem_erase_iff hnd).mp hk
        rw [dictInsert_lookup_ne d a.name a.id k hkr.1]
        exact hd k hkr.2
      have hfresh : dictInsert d a.name a.id = d ++ [(a.name, a.id)] :=
        dictInsert_fresh d a.name a.id (not_key_of_lookup_none d a.name (hd a.name hm))
      rcases hres with hin | ⟨hpr, hfind⟩
      · rw [hfresh] at hin
        rcases List.mem_append.mp hin with h1 | h2
        · exact .inl h1
        · have hpa : p = (a.name, a.id) := by simpa using h2
          subst hpa
          refine .inr ⟨hm, ?_⟩
          rw [List.find?_cons_of_pos _ (by simp)]
      · have hne : p.1 ≠ a.name := ((List.Nodup.mem_erase_iff hnd).mp hpr).1
        have hne2 : a.name ≠ p.1 := Ne.symm hne
        refine .inr ⟨((List.Nodup.mem_erase_iff hnd).mp hpr).2, ?_⟩
        rw [List.find?_cons_of_neg _ (by simp [hne2])]
        exact hfind
    · rw [show nameScanStep (rem, d) a = (rem, d) from by simp [nameScanStep, hm]] at hp
      rcases ih rem d hnd hd p hp with hin | ⟨hpr, hfind⟩
      · exact .inl hin
      · have hne : ¬(a.name = p.1) := fun hc => hm (hc ▸ hpr)
        refine .inr ⟨hpr, ?_⟩
        rw [List.find?_cons_of_neg _ (by simp [hne])]
        exact hfind

theorem foldl_tree_flat (t : OrgTree) :
    ∀ st : List String × List (String × String),
      t.foldl (fun st e => e.2.foldl nameScanStep st) st
        = (t.flatMap (fun e => e.2)).foldl nameScanStep st := by
  induction t with
  | nil => intro st; rfl
  | cons e tl ih =>
    intro st
    simp only [List.foldl_cons, List.flatMap_cons, List.foldl_append]
    exact ih _

theorem account_ids_from_name_eq_scan (names : List String) (t : OrgTree) :
    account_ids_from_name names t
      = ((flatAccounts t).foldl nameScanStep (names, [])).2 := by
  unfold account_ids_from_name flatAccounts
  rw [foldl_tree_flat]

/-- C3 counterexample: with the account name `"A"` requested twice and two
OUs each holding an account named `"A"` (ids `"1"` then `"2"` in tree order),
the result maps `"A"` to `"2"`, the id of the *second* encountered copy — not
only to the first encountered copy as the claim states for every requested
list. -/
theorem account_ids_from_name_duplicate_request_counterexample :
    account_ids_from_name ["A", "A"] [("OU1", [⟨"A", "1"⟩]), ("OU2", [⟨"A", "2"⟩])]
      = [("A", "2")]
    ∧ firstAccountNamed [("OU1", [⟨"A", "1"⟩]), ("OU2", [⟨"A", "2"⟩])] "A"
      = some ⟨"A", "1"⟩
    ∧ ([("A", "2")] : List (String × String)) ≠ [("A", "1")] := by
  refine ⟨by decide, by decide, by decide⟩

/-- C3: corrected.  For a requested list without duplicate names (the claim
fails when a name is requested twice, see the counterexample),
`account_ids_from_name` scans OU lists in tree order and resolves each
requested name to the id of the first account encountered with that name
(later copies are ignored because the name is removed from the remaining
search list); requested names matching no account anywhere are silently
absent from the result, and nothing else is in the result. -/
theorem account_ids_from_name_first_match (names : List String) (t : OrgTree)
    (h : names.Nodup) :
    (∀ n ∈ names, (account_ids_from_name names t).lookup n
        = (firstAccountNamed t n).map (fun a => a.id))
    ∧ ∀ p ∈ account_ids_from_name names t,
        p.1 ∈ names ∧ firstAccountNamed t p.1 = some ⟨p.1, p.2⟩ := by
  constructor
  · intro n hn
    rw [account_ids_from_name_eq_scan]
    unfold firstAccountNamed
    exact scan_resolves (flatAccounts t) names [] h (fun k _ => rfl) n hn
  · intro p hp
    rw [account_ids_from_name_eq_scan] at hp
    have hres := scan_sound (flatAccounts t) names [] h (fun k _ => rfl) p hp
    unfold firstAccountNamed
    rcases hres with hin | hr
    · cases hin
    · exact hr

/-- C3 witness: `"B"` lives in two OUs; a duplicate-free request resolves it
to the first encountered copy (id `"2"`), and the unmatched name `"Ghost"` is
silently absent. -/
theorem account_ids_from_name_first_match_witness :
    ((["B", "Ghost"] : List String)).Nodup
    ∧ (account_ids_from_name ["B", "Ghost"]
        [("OU1", [⟨"A", "1"⟩, ⟨"B", "2"⟩]), ("OU2", [⟨"B", "3"⟩])]).lookup "B"
      = (firstAccountNamed [("OU1", [⟨"A", "1"⟩, ⟨"B", "2"⟩]), ("OU2", [⟨"B", "3"⟩])] "B").map
          (fun a => a.id)
    ∧ (account_ids_from_name ["B", "Ghost"]
        [("OU1", [⟨"A", "1"⟩, ⟨"B", "2"⟩]), ("OU2", [⟨"B", "3"⟩])]).lookup "Ghost"
      = (firstAccountNamed [("OU1", [⟨"A", "1"⟩, ⟨"B", "2"⟩]), ("OU2", [⟨"B", "3"⟩])] "Ghost").map
          (fun a => a.id) :=
  ⟨by decide,
    (account_ids_from_name_first_match ["B", "Ghost"]
      [("OU1", [⟨"A", "1"⟩, ⟨"B", "2"⟩]), ("OU2", [⟨"B", "3"⟩])] (by decide)).1 "B" (by decide),
    (account_ids_from_name_first_match ["B", "Ghost"]
      [("OU1", [⟨"A", "1"⟩, ⟨"B", "2"⟩]), ("OU2", [⟨"B", "3"⟩])] (by decide)).1 "Ghost"
      (by decide)⟩

/-! ### C4: create_provider_code -/

theorem providerBlock_eq_spec (region n id : String) :
    providerBlock region n id = renderProviderSpec (providerSpecOf region n id) := by
  unfold providerBlock providerSpecOf renderProviderSpec
  by_cases h : n = "Management"
  · rw [if_pos h, if_pos h]
    apply String.ext
    simp only [String.data_append, List.append_assoc]
    rfl
  · rw [if_neg h, if_neg h]
    apply String.ext
    simp only [String.data_append, List.append_assoc]
    rfl

theorem create_provider_code_eq (regions : List String)
    (accounts : List (String × String)) :
    create_provider_code regions accounts
      = strConcat (regions.flatMap fun r =>
          accounts.map fun p => renderProviderSpec (providerSpecOf r p.1 p.2)) := by
  unfold create_provider_code
  simp only [foldl_append_strConcat]
  rw [string_empty_append]
  rw [strConcat_flatMap]
  congr 1
  apply List.map_congr_left
  intro r _
  congr 1
  apply List.map_congr_left
  intro p _
  exact providerBlock_eq_spec r p.1 p.2

set_option maxRecDepth 100000 in
/-- C4: confirmed.  `create_provider_code` emits, per `(region, account)`
pair (regions outer, accounts inner), exactly the rendering of the spec-side
provider block: for the account named `"Management"` a bare block with no
assume-role and no alias; for every other account an assume-role block on
`arn:aws:iam::<id>:role/OrganizationAccountAccessRole` aliased
`"<region>-<lowercased-name>"`.  On the spec's concrete example the output
has exactly one `assume_role` occurrence, exactly one alias
`"eu-west-2-audit"`, and the Management block contains neither `assume_role`
nor `alias`. -/
theorem create_provider_code_spec (regions : List String)
    (accounts : List (String × String)) :
    (create_provider_code regions accounts
      = strConcat (regions.flatMap fun r =>
          accounts.map fun p => renderProviderSpec (providerSpecOf r p.1 p.2)))
    ∧ (∀ r accId, providerSpecOf r "Management" accId
        = ⟨r, none, none⟩)
    ∧ (∀ r n accId, n ≠ "Management" → providerSpecOf r n accId
        = ⟨r, some ("arn:aws:iam::" ++ accId ++ ":role/OrganizationAccountAccessRole"),
            some (r ++ "-" ++ pyLower n)⟩)
    ∧ countOccur (create_provider_code ["eu-west-2"]
        [("Management", "123456789012"), ("Audit", "555555555555")]) ("assume_role") = 1
    ∧ countOccur (create_provider_code ["eu-west-2"]
        [("Management", "123456789012"), ("Audit", "555555555555")])
        ("alias  = \"eu-west-2-audit\"") = 1
    ∧ countOccur (providerBlock "eu-west-2" "Management" "123456789012") ("assume_role") = 0
    ∧ countOccur (providerBlock "eu-west-2" "Management" "123456789012") ("alias") = 0 := by
  refine ⟨create_provider_code_eq regions accounts, ?_, ?_, by decide, by decide,
    by decide, by decide⟩
  · intro r accId
    simp [providerSpecOf]
  · intro r n accId hn
    simp [providerSpecOf, hn]

/-- C4 witness: instantiating the non-management clause at `"Audit"`. -/
theorem create_provider_code_spec_witness :
    ("Audit" : String) ≠ "Management"
    ∧ providerSpecOf "eu-west-2" "Audit" "555555555555"
      = ⟨"eu-west-2",
          some ("arn:aws:iam::" ++ "555555555555" ++ ":role/OrganizationAccountAccessRole"),
          some ("eu-west-2" ++ "-" ++ pyLower "Audit")⟩ :=
  ⟨by decide,
    (create_provider_code_spec ["eu-west-2"]
      [("Management", "123456789012"), ("Audit", "555555555555")]).2.2.1
      "eu-west-2" "Audit" "555555555555" (by decide)⟩

/-! ### C5: create_module_code -/

theorem except_ok_bind {ε α β : Type} (a : α) (f : α → Except ε β) :
    (Except.ok a >>= f : Except ε β) = f a := rfl

theorem variableLines_ok (vs : List TfVar) :
    ∀ (fs : List PyFmt) (s : String),
      formatEach (vs.map (fun v => v.value)) 0 = .ok fs →
      vs.foldlM (fun code v =>
        (match format_value v.value 0 with
         | .error e => .error e
         | .ok f => .ok (code ++ "  " ++ v.name ++ " = " ++ pyStr f ++ "\n")
         : Except String String)) s
      = .ok (s ++ strConcat ((vs.zip fs).map
          (fun p => "  " ++ p.1.name ++ " = " ++ pyStr p.2 ++ "\n"))) := by
  induction vs with
  | nil =>
    intro fs s h
    simp only [List.map_nil, formatEach] at h
    injection h with h1
    subst h1
    simp only [List.foldlM_nil, List.zip_nil_right, List.map_nil, strConcat_nil,
      string_append_empty]
    rfl
  | cons v tl ih =>
    intro fs s h
    simp only [List.map_cons, formatEach] at h
    cases hv : format_value v.value 0 with
    | error e => rw [hv] at h; cases h
    | ok f =>
      rw [hv] at h
      cases hrest : formatEach (tl.map (fun v => v.value)) 0 with
      | error e => rw [hrest] at h; cases h
      | ok r =>
        rw [hrest] at h
        injection h with h1
        subst h1
        rw [List.foldlM_cons]
        simp only [hv, except_ok_bind]
        rw [ih r (s ++ "  " ++ v.name ++ " = " ++ pyStr f ++ "\n") hrest]
        simp only [List.zip_cons_cons, List.map_cons, strConcat_cons]
        congr 1
        apply String.ext
        simp only [String.data_append, List.append_assoc]

theorem dependsOnText_eq (deps : List String) (region : String) :
    dependsOnText deps region
      = match deps.map (fun d => "module." ++ d ++ "-" ++ region) with
        | [] => ""
        | r :: tl => "  depends_on = [ " ++ sepJoin (", ") (r :: tl) ++ " ]\n" := by
  cases deps with
  | nil => rfl
  | cons d dl =>
    simp only [List.map_cons]
    unfold dependsOnText
    rw [if_neg (by simp)]
    have hfun : (fun (code : String) (dependent : String) =>
        code ++ "module." ++ dependent ++ "-" ++ region ++ ", ")
        = fun (code : String) (dependent : String) =>
            code ++ (("module." ++ dependent ++ "-" ++ region) ++ ", ") := by
      funext code dependent
      apply String.ext
      simp only [String.data_append, List.append_assoc]
    rw [hfun]
    rw [foldl_append_strConcat
      (fun dependent => ("module." ++ dependent ++ "-" ++ region) ++ ", ") (d :: dl)
      ("  depends_on = [ ")]
    rw [sepJoin_comma_suffixed (fun x => "module." ++ x ++ "-" ++ region) d dl]
    rw [← string_append_assoc, pySliceDropTwo_append]
    simp only [List.map_cons]

theorem foldlM_append_of_ok {α : Type} (l : List α)
    (F : α → String → Except String String) (H : α → String)
    (hF : ∀ a ∈ l, ∀ s, F a s = .ok (s ++ H a)) :
    ∀ s, l.foldlM (fun code a => F a code) s = .ok (s ++ strConcat (l.map H)) := by
  induction l with
  | nil =>
    intro s
    simp only [List.foldlM_nil, List.map_nil, strConcat_nil, string_append_empty]
    rfl
  | cons a tl ih =>
    intro s
    rw [List.foldlM_cons]
    simp only [hF a (List.mem_cons_self a tl) s, except_ok_bind]
    rw [ih (fun b hb => hF b (List.mem_cons_of_mem a hb)) (s ++ H a)]
    rw [List.map_cons, strConcat_cons, string_append_assoc]

theorem moduleBlock_eq_spec (mn ms : String) (vs : List TfVar) (deps : List String)
    (region n : String) (fs : List PyFmt)
    (h : formatEach (vs.map (fun v => v.value)) 0 = .ok fs) :
    moduleBlock mn ms vs deps region n
      = .ok (renderModuleBlockSpec (moduleBlockSpecOf mn ms
          (strConcat ((vs.zip fs).map
            (fun p => "  " ++ p.1.name ++ " = " ++ pyStr p.2 ++ "\n")))
          deps region n)) := by
  unfold moduleBlock variableLines
  rw [variableLines_ok vs fs "" h]
  rw [string_empty_append]
  unfold renderModuleBlockSpec moduleBlockSpecOf
  rw [dependsOnText_eq]
  by_cases hm : pyLower n = "management"
  · rw [if_pos hm]
    rw [if_neg (by simp [hm])]
    cases deps with
    | nil =>
      simp only [List.map_nil]
      refine congrArg Except.ok ?_
      apply String.ext
      simp only [String.data_append, List.append_assoc]
      rfl
    | cons d dl =>
      simp only [List.map_cons]
      refine congrArg Except.ok ?_
      apply String.ext
      simp only [String.data_append, List.append_assoc]
      rfl
  · rw [if_neg hm]
    rw [if_pos (by simp [hm])]
    cases deps with
    | nil =>
      simp only [List.map_nil]
      refine congrArg Except.ok ?_
      apply String.ext
      simp only [String.data_append, List.append_assoc]
      rfl
    | cons d dl =>
      simp only [List.map_cons]
      refine congrArg Except.ok ?_
      apply String.ext
      simp only [String.data_append, List.append_assoc]
      rfl

theorem create_module_inner (mn ms region : String) (vs : List TfVar)
    (deps : List String) (fs : List PyFmt)
    (h : formatEach (vs.map (fun v => v.value)) 0 = .ok fs) :
    ∀ (accounts : List (String × String)) (s : String),
      accounts.foldlM (fun code p =>
        (match moduleBlock mn ms vs deps region p.1 with
         | .error e => .error e
         | .ok b => .ok (code ++ b) : Except String String)) s
      = .ok (s ++ strConcat (accounts.map (fun p =>
          renderModuleBlockSpec (moduleBlockSpecOf mn ms
            (strConcat ((vs.zip fs).map
              (fun q => "  " ++ q.1.name ++ " = " ++ pyStr q.2 ++ "\n")))
            deps region p.1)))) := by
  intro accounts
  induction accounts with
  | nil =>
    intro s
    simp only [List.foldlM_nil, List.map_nil, strConcat_nil, string_append_empty]
    rfl
  | cons p tl ih =>
    intro s
    rw [List.foldlM_cons]
    simp only [moduleBlock_eq_spec mn ms vs deps region p.1 fs h, except_ok_bind]
    rw [ih]
    rw [List.map_cons, strConcat_cons, string_append_assoc]

theorem create_module_code_eq (mn ms : String) (accounts : List (String × String))
    (regions : List String) (vs : List TfVar) (deps : List String) (fs : List PyFmt)
    (h : formatEach (vs.map (fun v => v.value)) 0 = .ok fs) :
    create_module_code mn ms accounts regions vs deps
      = .ok (strConcat (regions.flatMap fun r => accounts.map fun p =>
          renderModuleBlockSpec (moduleBlockSpecOf mn ms
            (strConcat ((vs.zip fs).map
              (fun q => "  " ++ q.1.name ++ " = " ++ pyStr q.2 ++ "\n")))
            deps r p.1))) := by
  unfold create_module_code
  rw [strConcat_flatMap]
  have main : ∀ (rs : List String) (s : String),
      rs.foldlM (fun code region =>
        accounts.foldlM (fun code p =>
          (match moduleBlock mn ms vs deps region p.1 with
           | .error e => .error e
           | .ok b => .ok (code ++ b) : Except String String)) code) s
      = .ok (s ++ strConcat (rs.map (fun r => strConcat (accounts.map (fun p =>
          renderModuleBlockSpec (moduleBlockSpecOf mn ms
            (strConcat ((vs.zip fs).map
              (fun q => "  " ++ q.1.name ++ " = " ++ pyStr q.2 ++ "\n")))
            deps r p.1)))))) := by
    intro rs
    induction rs with
    | nil =>
      intro s
      simp only [List.foldlM_nil, List.map_nil, strConcat_nil, string_append_empty]
      rfl
    | cons r tl ih =>
      intro s
      rw [List.foldlM_cons]
      simp only [create_module_inner mn ms r vs deps fs h accounts s, except_ok_bind]
      rw [ih]
      rw [List.map_cons, strConcat_cons, string_append_assoc]
  rw [main regions ""]
  rw [string_empty_append]

/-- C5: confirmed.  When every declared variable value formats successfully,
`create_module_code` emits, per `(region, account)` pair, exactly the
rendering of the spec-side module block: named
`"<module>-<region>-<lowercased-name>"`, with the module source, one line per
declared variable in declared order (`  name = formatted`), a providers alias
reference `"aws.<region>-<lowercased-name>"` omitted exactly when the
lowercased account name is `"management"`, and, when dependencies are
declared, a single depends_on list with one entry `"module.<dep>-<region>"`
per dependency (region-indexed, not account-indexed). -/
theorem create_module_code_spec (mn ms : String) (accounts : List (String × String))
    (regions : List String) (vs : List TfVar) (deps : List String) (fs : List PyFmt)
    (h : formatEach (vs.map (fun v => v.value)) 0 = .ok fs) :
    (create_module_code mn ms accounts regions vs deps
      = .ok (strConcat (regions.flatMap fun r => accounts.map fun p =>
          renderModuleBlockSpec (moduleBlockSpecOf mn ms
            (strConcat ((vs.zip fs).map
              (fun q => "  " ++ q.1.name ++ " = " ++ pyStr q.2 ++ "\n")))
            deps r p.1))))
    ∧ (∀ vt r nm, (moduleBlockSpecOf mn ms vt deps r nm).blockName
        = mn ++ "-" ++ r ++ "-" ++ pyLower nm)
    ∧ (∀ vt r nm, (moduleBlockSpecOf mn ms vt deps r nm).providerAliasRef = none
        ↔ pyLower nm = "management")
    ∧ (∀ vt r nm, pyLower nm ≠ "management" →
        (moduleBlockSpecOf mn ms vt deps r nm).providerAliasRef
          = some ("aws." ++ r ++ "-" ++ pyLower nm))
    ∧ (∀ vt r nm, (moduleBlockSpecOf mn ms vt deps r nm).dependsOnRefs
        = deps.map (fun d => "module." ++ d ++ "-" ++ r)) := by
  refine ⟨create_module_code_eq mn ms accounts regions vs deps fs h, ?_, ?_, ?_, ?_⟩
  · intro vt r nm
    rfl
  · intro vt r nm
    unfold moduleBlockSpecOf
    by_cases hm : pyLower nm = "management"
    · simp [hm]
    · simp [hm]
  · intro vt r nm hm
    simp [moduleBlockSpecOf, hm]
  · intro vt r nm
    rfl

/-- C5 witness: one variable, two accounts (one of them `"Management"`), one
region and one dependency. -/
theorem create_module_code_spec_witness :
    formatEach (([⟨"v1", .str "x"⟩] : List TfVar).map (fun v => v.value)) 0
      = .ok [.fstr ("\"x\"")]
    ∧ create_module_code "mod" "src" [("Management", "1"), ("Audit", "2")] ["eu-west-2"]
        [⟨"v1", .str "x"⟩] ["depA"]
      = .ok (strConcat (["eu-west-2"].flatMap fun r =>
          [("Management", "1"), ("Audit", "2")].map fun p =>
            renderModuleBlockSpec (moduleBlockSpecOf "mod" "src"
              (strConcat ((([⟨"v1", .str "x"⟩] : List TfVar).zip [.fstr ("\"x\"")]).map
                (fun q => "  " ++ q.1.name ++ " = " ++ pyStr q.2 ++ "\n")))
              ["depA"] r p.1))) :=
  ⟨rfl,
    (create_module_code_spec "mod" "src" [("Management", "1"), ("Audit", "2")] ["eu-west-2"]
      [⟨"v1", .str "x"⟩] ["depA"] [.fstr ("\"x\"")] rfl).1⟩

/-! ### C7: dependency validation aborts the pass before any write -/

/-- C7: confirmed.  A module pass whose `dependsOn` list contains a name
absent from the run's module-name set produces no write event at all (in
particular no module-block text reaches the file sink) and aborts the run
(`false` — the early `return` from `deploy_targets`), so it is never
retried.  This holds from any planner state, whichever way the pass's target
resolution goes. -/
theorem invalid_dependency_aborts (account_ids_by_name : List (String × String))
    (all_modules : List String) (st : PlannerState) (m : TfModule)
    (h : ∃ d ∈ m.dependsOn, d ∉ all_modules) :
    (module_pass account_ids_by_name all_modules st m).1.writes = st.writes
    ∧ (module_pass account_ids_by_name all_modules st m).2 = false := by
  have hany : m.dependsOn.any (fun d => !(decide (d ∈ all_modules))) = true := by
    obtain ⟨d, hd, hnd⟩ := h
    rw [List.any_eq_true]
    exact ⟨d, hd, by simp [hnd]⟩
  unfold module_pass
  cases hres : resolve_targets m.deploymentTarget (passTree st m) with
  | error e => simp [hres]
  | ok dta => simp [hres, hany]

/-- C7 witness: a module depending on the undeclared `"ghost"` writes nothing
and aborts. -/
theorem invalid_dependency_aborts_witness :
    (∃ d ∈ (["ghost"] : List String), d ∉ (["m1"] : List String))
    ∧ (module_pass [] ["m1"] ⟨[("root", [⟨"A", "1"⟩])], [], []⟩
        { name := "bad", source := "s", regions := ["r1"], vars := [],
          dependsOn := ["ghost"],
          deploymentTarget := [("organizationalUnits", ["root"])] }).1.writes
      = (⟨[("root", [⟨"A", "1"⟩])], [], []⟩ : PlannerState).writes
    ∧ (module_pass [] ["m1"] ⟨[("root", [⟨"A", "1"⟩])], [], []⟩
        { name := "bad", source := "s", regions := ["r1"], vars := [],
          dependsOn := ["ghost"],
          deploymentTarget := [("organizationalUnits", ["root"])] }).2 = false :=
  ⟨⟨"ghost", by decide, by decide⟩,
    (invalid_dependency_aborts [] ["m1"] ⟨[("root", [⟨"A", "1"⟩])], [], []⟩
      { name := "bad", source := "s", regions := ["r1"], vars := [],
        dependsOn := ["ghost"],
        deploymentTarget := [("organizationalUnits", ["root"])] }
      ⟨"ghost", by decide, by decide⟩).1,
    (invalid_dependency_aborts [] ["m1"] ⟨[("root", [⟨"A", "1"⟩])], [], []⟩
      { name := "bad", source := "s", regions := ["r1"], vars := [],
        dependsOn := ["ghost"],
        deploymentTarget := [("organizationalUnits", ["root"])] }
      ⟨"ghost", by decide, by decide⟩).2⟩

/-! ### C10: per-pass provider regeneration from accumulated regions -/

theorem module_pass_ok_elim (abn : List (String × String)) (am : List String)
    (st : PlannerState) (m : TfModule) (st' : PlannerState)
    (h : module_pass abn am st m = (st', true)) :
    st'.allRegions = m.regions.foldl regionsInsert st.allRegions
    ∧ ∃ mc, st'.writes = st.writes
        ++ [("terraform/provider.tf",
              create_provider_code (m.regions.foldl regionsInsert st.allRegions) abn),
            ("terraform/" ++ m.name ++ ".tf", mc)] := by
  unfold module_pass at h
  cases hres : resolve_targets m.deploymentTarget (passTree st m) with
  | error e =>
    rw [hres] at h
    simp at h
  | ok dta =>
    rw [hres] at h
    by_cases hdep : m.dependsOn.any (fun d => !(decide (d ∈ am))) = true
    · simp [hdep] at h
    · rw [Bool.not_eq_true] at hdep
      rw [hdep] at h
      simp only [Bool.false_eq_true, if_false] at h
      cases hmc : create_module_code m.name m.source dta m.regions m.vars m.dependsOn with
      | error e =>
        rw [hmc] at h
        simp at h
      | ok mc =>
        rw [hmc] at h
        simp only [Prod.mk.injEq] at h
        rw [← h.1]
        exact ⟨rfl, mc, rfl⟩

theorem run_writes_shape (abn : List (String × String)) (am : List String) :
    ∀ (l : List TfModule) (st : PlannerState),
      run_ok abn am st l = true →
      (run_from abn am st l).allRegions = regionsUnion l st.allRegions
      ∧ (run_from abn am st l).writes.length = st.writes.length + 2 * l.length
      ∧ (l ≠ [] → (run_from abn am st l).writes.get? (st.writes.length + 2 * l.length - 2)
          = some ("terraform/provider.tf",
              create_provider_code ((run_from abn am st l).allRegions) abn)) := by
  intro l
  induction l with
  | nil =>
    intro st _
    refine ⟨rfl, by simp [run_from], fun hne => absurd rfl hne⟩
  | cons m tl ih =>
    intro st hok
    unfold run_ok at hok
    unfold run_from
    cases hmp : module_pass abn am st m with
    | mk st1 b =>
      rw [hmp] at hok
      cases b with
      | false => simp at hok
      | true =>
        simp only []
        obtain ⟨hreg, mc, hw⟩ := module_pass_ok_elim abn am st m st1 hmp
        have ihres := ih st1 hok
        refine ⟨?_, ?_, ?_⟩
        · rw [ihres.1, hreg]
          rfl
        · rw [ihres.2.1, hw]
          simp only [List.length_append, List.length_cons, List.length_nil]
          omega
        · intro _
          by_cases htl : tl = []
          · subst htl
            simp only [run_from]
            rw [hw]
            have hlen : st.writes.length + 2 * ([m] : List TfModule).length - 2
                = st.writes.length := by simp
            rw [hlen]
            rw [List.get?_append_right (Nat.le_refl _)]
            simp only [Nat.sub_self, List.get?_cons_zero]
            rw [hreg]
          · have hthis := ihres.2.2 htl
            have hidx : st1.writes.length + 2 * tl.length - 2
                = st.writes.length + 2 * ((m :: tl) : List TfModule).length - 2 := by
              rw [hw]
              simp only [List.length_append, List.length_cons, List.length_nil]
              omega
            rw [hidx] at hthis
            exact hthis

theorem regionsInsert_mem_self (acc : List String) (r : String) :
    r ∈ regionsInsert acc r := by
  unfold regionsInsert
  by_cases h : r ∈ acc
  · simp only [if_pos h]
    exact h
  · simp [h]

theorem regionsInsert_mono (acc : List String) (r x : String) (h : x ∈ acc) :
    x ∈ regionsInsert acc r := by
  unfold regionsInsert
  by_cases hr : r ∈ acc
  · simpa [hr]
  · simp [hr, List.mem_append]
    exact .inl h

theorem foldl_regionsInsert_mono (rs : List String) :
    ∀ (acc : List String) (x : String), x ∈ acc → x ∈ rs.foldl regionsInsert acc := by
  induction rs with
  | nil => intro acc x h; exact h
  | cons r tl ih =>
    intro acc x h
    exact ih (regionsInsert acc r) x (regionsInsert_mono acc r x h)

theorem foldl_regionsInsert_mem (rs : List String) :
    ∀ (acc : List String) (r : String), r ∈ rs → r ∈ rs.foldl regionsInsert acc := by
  induction rs with
  | nil => intro acc r h; cases h
  | cons r0 tl ih =>
    intro acc r h
    rcases List.mem_cons.mp h with rfl | htl
    · exact foldl_regionsInsert_mono tl (regionsInsert acc r) r (regionsInsert_mem_self acc r)
    · exact ih (regionsInsert acc r0) r htl

theorem regionsUnion_mono (l : List TfModule) :
    ∀ (init : List String) (x : String), x ∈ init → x ∈ regionsUnion l init := by
  induction l with
  | nil => intro init x h; exact h
  | cons m tl ih =>
    intro init x h
    exact ih (m.regions.foldl regionsInsert init) x (foldl_regionsInsert_mono m.regions init x h)

theorem regionsUnion_covers (l : List TfModule) :
    ∀ (init : List String) (j : Nat) (m : TfModule), l.get? j = some m →
      ∀ r ∈ m.regions, r ∈ regionsUnion l init := by
  induction l with
  | nil => intro init j m h; cases h
  | cons m0 tl ih =>
    intro init j m h r hr
    cases j with
    | zero =>
      injection h with h0
      rw [← h0] at hr
      exact regionsUnion_mono tl (m0.regions.foldl regionsInsert init) r
        (foldl_regionsInsert_mem m0.regions init r hr)
    | succ j0 =>
      exact ih (m0.regions.foldl regionsInsert init) j0 m h r hr

theorem dictInsert_hasKey_self (d : List (String × String)) (k v : String) :
    ∃ w, (k, w) ∈ dictInsert d k v := by
  unfold dictInsert
  by_cases h : d.any (fun p => decide (p.1 = k)) = true
  · rw [if_pos h]
    rw [List.any_eq_true] at h
    obtain ⟨p, hp, hpk⟩ := h
    rw [decide_eq_true_eq] at hpk
    refine ⟨v, ?_⟩
    have := List.mem_map_of_mem
      (f := fun p : String × String => if p.1 = k then (k, v) else p) hp
    simpa [hpk] using this
  · rw [if_neg h]
    exact ⟨v, List.mem_append_right d (List.mem_singleton_self _)⟩

theorem dictInsert_hasKey_mono (d : List (String × String)) (k v n : String)
    (h : ∃ w, (n, w) ∈ d) : ∃ w, (n, w) ∈ dictInsert d k v := by
  obtain ⟨w, hw⟩ := h
  unfold dictInsert
  by_cases hc : d.any (fun p => decide (p.1 = k)) = true
  · rw [if_pos hc]
    by_cases hnk : n = k
    · refine ⟨v, ?_⟩
      have := List.mem_map_of_mem
        (f := fun p : String × String => if p.1 = k then (k, v) else p) hw
      simpa [hnk] using this
    · refine ⟨w, ?_⟩
      have := List.mem_map_of_mem
        (f := fun p : String × String => if p.1 = k then (k, v) else p) hw
      simpa [hnk] using this
  · rw [if_neg hc]
    exact ⟨w, List.mem_append_left _ hw⟩

theorem foldl_accounts_hasKey_mono (l : List Account) :
    ∀ (d : List (String × String)) (n : String), (∃ w, (n, w) ∈ d) →
      ∃ w, (n, w) ∈ l.foldl (fun d a => dictInsert d a.name a.id) d := by
  induction l with
  | nil => intro d n h; exact h
  | cons a tl ih =>
    intro d n h
    exact ih (dictInsert d a.name a.id) n (dictInsert_hasKey_mono d a.name a.id n h)

theorem foldl_accounts_hasKey (l : List Account) :
    ∀ (d : List (String × String)) (a : Account), a ∈ l →
      ∃ w, (a.name, w) ∈ l.foldl (fun d a => dictInsert d a.name a.id) d := by
  induction l with
  | nil => intro d a h; cases h
  | cons a0 tl ih =>
    intro d a h
    rcases List.mem_cons.mp h with rfl | htl
    · exact foldl_accounts_hasKey_mono tl (dictInsert d a.name a.id) a.name
        (dictInsert_hasKey_self d a.name a.id)
    · exact ih (dictInsert d a0.name a0.id) a htl

theorem foldl_tree_hasKey_mono (t : OrgTree) :
    ∀ (d : List (String × String)) (n : String), (∃ w, (n, w) ∈ d) →
      ∃ w, (n, w) ∈ t.foldl
        (fun acc e => e.2.foldl (fun acc a => dictInsert acc a.name a.id) acc) d := by
  induction t with
  | nil => intro d n h; exact h
  | cons e tl ih =>
    intro d n h
    simp only [List.foldl_cons]
    exact ih _ n (foldl_accounts_hasKey_mono e.2 d n h)

theorem build_account_ids_hasKey_aux (t : OrgTree) :
    ∀ (d : List (String × String)) (ou : String) (accs : List Account) (a : Account),
      (ou, accs) ∈ t → a ∈ accs →
      ∃ w, (a.name, w) ∈ t.foldl
        (fun acc e => e.2.foldl (fun acc a => dictInsert acc a.name a.id) acc) d := by
  induction t with
  | nil => intro d ou accs a h; cases h
  | cons e tl ih =>
    intro d ou accs a hmem ha
    simp only [List.foldl_cons]
    rcases List.mem_cons.mp hmem with heq | htl
    · have h1 : ∃ w, (a.name, w) ∈ e.2.foldl (fun acc a => dictInsert acc a.name a.id) d := by
        rw [← heq]
        exact foldl_accounts_hasKey accs d a ha
      exact foldl_tree_hasKey_mono tl _ a.name h1
    · exact ih _ ou accs a htl ha

theorem build_account_ids_covers (t : OrgTree) (ou : String) (accs : List Account)
    (a : Account) (hmem : (ou, accs) ∈ t) (ha : a ∈ accs) :
    ∃ w, (a.name, w) ∈ build_account_ids_by_name t :=
  build_account_ids_hasKey_aux t [] ou accs a hmem ha

/-- C10: confirmed.  In a run whose first `i + 1` module passes all complete,
the `i`-th pass (0-based) writes `terraform/provider.tf` (write event
`2 * i`) with content `create_provider_code` applied to the accumulated union
of the regions of modules `0 .. i` (the process-wide `ALL_REGIONS` set) and
to `account_ids_by_name`, the name-to-id mapping built once from every
account of the original tree — not from the module's resolved deployment
set.  Consequently a region declared only by an earlier module is in the
region set used by every later pass's provider text, and every account of the
tree has an entry in the mapping handed to the provider generator. -/
theorem provider_regenerated_per_pass (tree : OrgTree) (mods : List TfModule) (i : Nat)
    (hi : i < mods.length)
    (hok : run_ok (build_account_ids_by_name tree) (mods.map (fun m => m.name))
      ⟨tree, [], []⟩ (mods.take (i + 1)) = true) :
    (run_from (build_account_ids_by_name tree) (mods.map (fun m => m.name))
        ⟨tree, [], []⟩ (mods.take (i + 1))).writes.length = 2 * (i + 1)
    ∧ (run_from (build_account_ids_by_name tree) (mods.map (fun m => m.name))
        ⟨tree, [], []⟩ (mods.take (i + 1))).writes.get? (2 * i)
      = some ("terraform/provider.tf",
          create_provider_code (regionsUnion (mods.take (i + 1)) [])
            (build_account_ids_by_name tree))
    ∧ (∀ j m, j ≤ i → mods.get? j = some m →
        ∀ r ∈ m.regions, r ∈ regionsUnion (mods.take (i + 1)) [])
    ∧ (∀ ou accs, (ou, accs) ∈ tree → ∀ a ∈ accs,
        ∃ w, (a.name, w) ∈ build_account_ids_by_name tree) := by
  have hshape := run_writes_shape (build_account_ids_by_name tree)
    (mods.map (fun m => m.name)) (mods.take (i + 1)) ⟨tree, [], []⟩ hok
  have hne : mods.take (i + 1) ≠ [] := by
    intro hcon
    have hlc := congrArg List.length hcon
    rw [List.length_take] at hlc
    simp only [List.length_nil] at hlc
    omega
  have hlen_take : (mods.take (i + 1)).length = i + 1 := by
    rw [List.length_take]
    omega
  refine ⟨?_, ?_, ?_, ?_⟩
  · rw [hshape.2.1, hlen_take]
    simp
  · have h3 := hshape.2.2 hne
    rw [hlen_take] at h3
    rw [hshape.1] at h3
    have hidx : (⟨tree, [], []⟩ : PlannerState).writes.length + 2 * (i + 1) - 2
        = 2 * i := by
      simp only [List.length_nil]
      omega
    rw [hidx] at h3
    exact h3
  · intro j m hj hmap r hr
    have hget : (mods.take (i + 1)).get? j = some m := by
      rw [List.get?_take (Nat.lt_succ_of_le hj)]
      exact hmap
    exact regionsUnion_covers (mods.take (i + 1)) [] j m hget r hr
  · intro ou accs hmem a ha
    exact build_account_ids_covers tree ou accs a hmem ha

set_option maxRecDepth 100000 in
/-- C10 witness: two modules with different regions; after the second pass
the provider write of pass 1 (write event 2) uses the union of both modules'
regions. -/
theorem provider_regenerated_per_pass_witness :
    (1 < ([({ name := "mA", source := "sA", regions := ["eu-west-1"], vars := [],
              dependsOn := [], deploymentTarget := [("organizationalUnits", ["root"])] }),
          ({ name := "mB", source := "sB", regions := ["eu-west-2"], vars := [],
              dependsOn := [], deploymentTarget := [("organizationalUnits", ["root"])] })]
          : List TfModule).length)
    ∧ run_ok (build_account_ids_by_name [("root", [⟨"Management", "1"⟩, ⟨"Audit", "2"⟩])])
        (([({ name := "mA", source := "sA", regions := ["eu-west-1"], vars := [],
              dependsOn := [], deploymentTarget := [("organizationalUnits", ["root"])] }),
          ({ name := "mB", source := "sB", regions := ["eu-west-2"], vars := [],
              dependsOn := [], deploymentTarget := [("organizationalUnits", ["root"])] })]
          : List TfModule).map (fun m => m.name))
        ⟨[("root", [⟨"Management", "1"⟩, ⟨"Audit", "2"⟩])], [], []⟩
        (([({ name := "mA", source := "sA", regions := ["eu-west-1"], vars := [],
              dependsOn := [], deploymentTarget := [("organizationalUnits", ["root"])] }),
          ({ name := "mB", source := "sB", regions := ["eu-west-2"], vars := [],
              dependsOn := [], deploymentTarget := [("organizationalUnits", ["root"])] })]
          : List TfModule).take (1 + 1)) = true
    ∧ (run_from (build_account_ids_by_name [("root", [⟨"Management", "1"⟩, ⟨"Audit", "2"⟩])])
        (([({ name := "mA", source := "sA", regions := ["eu-west-1"], vars := [],
              dependsOn := [], deploymentTarget := [("organizationalUnits", ["root"])] }),
          ({ name := "mB", source := "sB", regions := ["eu-west-2"], vars := [],
              dependsOn := [], deploymentTarget := [("organizationalUnits", ["root"])] })]
          : List TfModule).map (fun m => m.name))
        ⟨[("root", [⟨"Management", "1"⟩, ⟨"Audit", "2"⟩])], [], []⟩
        (([({ name := "mA", source := "sA", regions := ["eu-west-1"], vars := [],
              dependsOn := [], deploymentTarget := [("organizationalUnits", ["root"])] }),
          ({ name := "mB", source := "sB", regions := ["eu-west-2"], vars := [],
              dependsOn := [], deploymentTarget := [("organizationalUnits", ["root"])] })]
          : List TfModule).take (1 + 1))).writes.get? (2 * 1)
      = some ("terraform/provider.tf",
          create_provider_code
            (regionsUnion
              (([({ name := "mA", source := "sA", regions := ["eu-west-1"], vars := [],
                    dependsOn := [],
                    deploymentTarget := [("organizationalUnits", ["root"])] }),
                ({ name := "mB", source := "sB", regions := ["eu-west-2"], vars := [],
                    dependsOn := [],
                    deploymentTarget := [("organizationalUnits", ["root"])] })]
                : List TfModule).take (1 + 1)) [])
            (build_account_ids_by_name [("root", [⟨"Management", "1"⟩, ⟨"Audit", "2"⟩])])) :=
  ⟨by decide, by decide,
    (provider_regenerated_per_pass [("root", [⟨"Management", "1"⟩, ⟨"Audit", "2"⟩])]
      [({ name := "mA", source := "sA", regions := ["eu-west-1"], vars := [],
          dependsOn := [], deploymentTarget := [("organizationalUnits", ["root"])] }),
       ({ name := "mB", source := "sB", regions := ["eu-west-2"], vars := [],
          dependsOn := [], deploymentTarget := [("organizationalUnits", ["root"])] })]
      1 (by decide) (by decide)).2.1⟩
